import Mathlib

/-!
# Verification of the Social-Media-Video-Transcriber core pipeline

Shallow embedding of the repository's core logic:

* `social_media_transcriber/utils/file_utils.py`
  (`sanitize_folder_name`, `load_urls_from_file`, `save_urls_to_file`),
* `social_media_transcriber/utils/processing.py`
  (`_expand_url`, `process_urls`, `_process_single_url`),
* `social_media_transcriber/utils/bulk_processor.py`
  (`_update_bulk_file_with_expansion_context`),
* `social_media_transcriber/core/youtube_provider.py` (`extract_video_urls`),
* `social_media_transcriber/core/tiktok_provider.py` (`extract_user_videos`).

External collaborators (yt-dlp subprocesses, the filesystem, the
transcriber binary, per-platform regex URL classification) are modelled as
explicit environment parameters; file contents are modelled as strings.
Strings are modelled over their character lists; the Python regex classes
`\w` and `\s` are modelled at their ASCII meaning.
-/

set_option maxRecDepth 100000

namespace FileUtils

/-- Characters removed by the first regex of `sanitize_folder_name`
(`re.sub(r'[<>:"/\\|?*]', '', name)`). -/
def isForbidden (c : Char) : Bool :=
  c = '<' || c = '>' || c = ':' || c = '"' || c = '/' || c = '\\' ||
  c = '|' || c = '?' || c = '*'

/-- Python regex `\w` (ASCII): letters, digits and underscore. -/
def isWordChar (c : Char) : Bool :=
  c.isAlphanum || c = '_'

/-- Python regex `\s` (ASCII): space, tab, newline, carriage return,
vertical tab, form feed. -/
def isSpaceChar (c : Char) : Bool :=
  c = ' ' || c = '\t' || c = '\n' || c = '\r' || c = '\x0b' || c = '\x0c'

/-- Characters kept by the second regex of `sanitize_folder_name`
(`re.sub(r'[^\w\s\-_.,()[\]{}]', '', sanitized)`). -/
def isSafeChar (c : Char) : Bool :=
  isWordChar c || isSpaceChar c || c = '-' || c = '_' || c = '.' || c = ',' ||
  c = '(' || c = ')' || c = '[' || c = ']' || c = '\x7b' || c = '\x7d'

/-- `re.sub(r'\s+', ' ', s)`: replace every maximal run of whitespace by a
single space.  The boolean argument records whether the previous character
belonged to a whitespace run (in which case the run's space has already been
emitted). -/
def collapseAux : Bool → List Char → List Char
  | _, [] => []
  | prevSpace, c :: rest =>
    if isSpaceChar c then
      if prevSpace then collapseAux true rest
      else ' ' :: collapseAux true rest
    else c :: collapseAux false rest

/-- `re.sub(r'\s+', ' ', s)` on a whole string. -/
def collapseSpaces (l : List Char) : List Char :=
  collapseAux false l

/-- Python `str.strip()` (ASCII whitespace, both ends). -/
def pyStrip (l : List Char) : List Char :=
  (((l.dropWhile isSpaceChar).reverse.dropWhile isSpaceChar)).reverse

/-- Python `s.rsplit(' ', 1)[0]`: everything before the last space, or the
whole string when it contains no space. -/
def dropLastSegment (m : List Char) : List Char :=
  if ' ' ∈ m then ((m.reverse.dropWhile (fun c => !(c = ' '))).tail).reverse
  else m

/-- The truncation step of `sanitize_folder_name`:
`if len(sanitized) > max_length: sanitized = sanitized[:max_length].rsplit(' ', 1)[0]`. -/
def truncateName (maxLength : Nat) (l : List Char) : List Char :=
  if maxLength < l.length then dropLastSegment (l.take maxLength) else l

/-- `file_utils.sanitize_folder_name`, character-list level. -/
def sanitizeList (maxLength : Nat) (name : List Char) : List Char :=
  let s1 := name.filter (fun c => !isForbidden c)
  let s2 := s1.filter isSafeChar
  let s3 := collapseSpaces s2
  let s4 := pyStrip s3
  let s5 := truncateName maxLength s4
  if s5.isEmpty then "unknown".toList else s5

/-- `file_utils.sanitize_folder_name(name, max_length=100)`. -/
def sanitize_folder_name (name : String) (max_length : Nat := 100) : String :=
  ⟨sanitizeList max_length name.toList⟩

/-- No two adjacent whitespace characters. -/
def NoAdjSpaces (l : List Char) : Prop :=
  List.Chain' (fun a b => ¬(isSpaceChar a = true ∧ isSpaceChar b = true)) l

/-- The canonical shape enjoyed by every output of `sanitize_folder_name`:
only safe characters, whitespace normalized to single interior spaces,
stripped ends, bounded length, non-empty. -/
structure Canon (maxLength : Nat) (l : List Char) : Prop where
  safe : ∀ c ∈ l, isSafeChar c = true
  ws : ∀ c ∈ l, isSpaceChar c = true → c = ' '
  chain : NoAdjSpaces l
  headOk : ∀ c, l.head? = some c → isSpaceChar c = false
  lastOk : ∀ c, l.getLast? = some c → isSpaceChar c = false
  lenLe : l.length ≤ maxLength
  ne : l ≠ []

/-- Python text-mode universal-newlines translation applied on reading:
`\r\n` and a lone `\r` are both translated to `\n`.  The boolean records
whether the previous character was a carriage return (so that the `\n` of
a `\r\n` pair is not emitted twice). -/
def translateAux : Bool → List Char → List Char
  | _, [] => []
  | prevCR, c :: rest =>
    if c = '\r' then '\n' :: translateAux true rest
    else if c = '\n' then
      if prevCR then translateAux false rest
      else '\n' :: translateAux false rest
    else c :: translateAux false rest

/-- Universal-newlines translation of a whole file. -/
def translateNewlines (l : List Char) : List Char :=
  translateAux false l

/-- The lines of translated file contents as Python's line iteration
yields them (without the trailing newline character); a trailing newline
produces no extra empty line, matching `for line in f`. -/
def splitLines : List Char → List (List Char)
  | [] => []
  | c :: rest =>
    if c = '\n' then [] :: splitLines rest
    else
      match splitLines rest with
      | [] => [[c]]
      | line :: rst => (c :: line) :: rst

/-- Python `str.replace(pat, repl)`: replace non-overlapping occurrences
left to right.  The `Nat` argument is structural fuel, instantiated with
the list's length (every step consumes at least one character, so the
fuel never runs out). -/
def replaceListAux (pat repl : List Char) : Nat → List Char → List Char
  | 0, l => l
  | _ + 1, [] => []
  | n + 1, c :: rest =>
    if pat ≠ [] ∧ pat.isPrefixOf (c :: rest) then
      repl ++ replaceListAux pat repl n ((c :: rest).drop pat.length)
    else c :: replaceListAux pat repl n rest

def replaceList (pat repl l : List Char) : List Char :=
  replaceListAux pat repl l.length l

/-- Python `str.replace` on strings. -/
def pyReplace (s pat repl : String) : String :=
  ⟨replaceList pat.toList repl.toList s.toList⟩

/-- `file_utils.load_urls_from_file` on the file's raw contents: the file
is opened in text mode (universal newlines), then every line whose
stripped form is non-empty and that does not start with `#` contributes
its stripped form. -/
def load_urls_from_file (content : List Char) : List String :=
  (((splitLines (translateNewlines content)).filter
      (fun line => !(pyStrip line).isEmpty && !(line.head? == some '#'))).map
    (fun line => String.mk (pyStrip line)))

/-- `file_utils.save_urls_to_file`: write each URL followed by a newline. -/
def save_urls_to_file (urls : List String) : List Char :=
  (urls.map (fun u => u.toList ++ ['\n'])).flatten

end FileUtils

namespace Processing

/-- One element of a playlist/channel metadata `entries` list, as consumed
by `_expand_url`: the `webpage_url` and `url` fields, each possibly
absent. -/
structure Entry where
  webpage_url : Option String
  url : Option String
deriving DecidableEq

/-- The metadata dictionary fields consumed by `processing.py`: the `title`
key and the `entries` key, each possibly absent. -/
structure Metadata where
  title : Option String
  entries : Option (List Entry)

/-- The file handed back by `provider.download_audio`, identified by its
stem and suffix (enough to evaluate the `.txt`/`transcript` dispatch in
`_process_single_url`). -/
structure DownloadedFile where
  stem : String
  suffix : String

/-- A provider as used by `processing.py`: URL classification, metadata
retrieval and audio download.  The two fallible operations return
`Except Unit` to model raised exceptions; the output directory argument of
`download_audio` is omitted since no modelled result depends on it. -/
structure Provider where
  get_content_type : String → String
  get_metadata : String → Except Unit Metadata
  download_audio : String → Metadata → Except Unit DownloadedFile

/-- The provider registry `Downloader.get_provider`: the first provider
that validates the URL, or `None`. -/
structure Env where
  get_provider : String → Option Provider

/-- `entry.get("webpage_url") or entry.get("url")` followed by the
`if entry_url:` truthiness test: an empty string counts as absent. -/
def entryUrl (e : Entry) : Option String :=
  let first :=
    match e.webpage_url with
    | some s => if s.isEmpty then e.url else some s
    | none => e.url
  match first with
  | some s => if s.isEmpty then none else some s
  | none => none

/-- `processing._expand_url`, with explicit recursion fuel (the Python
generator recurses without any cycle guard; fuel only cuts off what would
not terminate there either).  Yields `(video_url, folder_context)` pairs. -/
def expandUrl (env : Env) : Nat → String → List String → List (String × List String)
  | 0, _, _ => []
  | fuel + 1, url, context =>
    match env.get_provider url with
    | none => []
    | some provider =>
      let content_type := provider.get_content_type url
      if content_type = "unknown" then []
      else if content_type = "channel" ∨ content_type = "playlist" ∨
          content_type = "profile" then
        match provider.get_metadata url with
        | .error _ => []
        | .ok metadata =>
          let name := FileUtils.sanitize_folder_name
            (metadata.title.getD ("Unknown " ++ content_type))
          let new_context := context ++ [name]
          match metadata.entries with
          | some entries =>
            if entries.isEmpty then []
            else
              (entries.map (fun entry =>
                match entryUrl entry with
                | some entry_url => expandUrl env fuel entry_url new_context
                | none => [])).flatten
          | none => []
      else if content_type = "video" then [(url, context)]
      else []

/-- Whether the registry resolves `url` to a provider that classifies it as
`ct`. -/
def classifiedAs (env : Env) (url ct : String) : Bool :=
  match env.get_provider url with
  | some provider => provider.get_content_type url == ct
  | none => false

/-- Behaviour of one `_process_single_url` worker call, as the orchestrator
sees it: a returned path, a returned `None`, or a raised exception. -/
inductive WorkerOutcome where
  | ok (path : String)
  | failed
  | exn
deriving DecidableEq

/-- The results-dictionary value the orchestrator stores for one completed
future: the returned path, or `None` for a returned `None` or a raised
exception. -/
def resultOf : WorkerOutcome → Option String
  | .ok path => some path
  | .failed => none
  | .exn => none

/-- The flat task list built by `process_urls` before submission: every
input URL expanded with an empty starting context. -/
def tasksOf (env : Env) (fuel : Nat) (urls : List String) : List (String × List String) :=
  (urls.map (fun url => expandUrl env fuel url [])).flatten

/-- `processing.process_urls`: expand all URLs, run one worker per task and
collect one `task_url ↦ Optional[Path]` entry per completed future.  The
dictionary is modelled as the association list of its insertions; the
worker pool's completion order is immaterial to the claims and is fixed to
submission order. -/
def process_urls (env : Env) (worker : String → List String → WorkerOutcome)
    (fuel : Nat) (urls : List String) : List (String × Option String) :=
  (tasksOf env fuel urls).map
    (fun task => (task.1, resultOf (worker task.1 task.2)))

/-- `"transcript" in name` (Python substring containment). -/
def containsList (pat : List Char) : List Char → Bool
  | [] => pat.isEmpty
  | c :: rest => (pat.isPrefixOf (c :: rest)) || containsList pat rest

/-- `downloaded_file.name`. -/
def fileName (f : DownloadedFile) : String :=
  f.stem ++ f.suffix

/-- `processing._process_single_url`.  `transcribe` stands for
`transcriber.transcribe_audio` (fallible, and *not* wrapped in a
try/except there); file-system writes, the LLM-enhancement text transform
and the cleanup `unlink` calls do not affect the returned path and are not
modelled.  The result is `.error ()` when the worker raises, `.ok none`
when it returns `None`, and `.ok (some path)` for a produced transcript
path (relative to the job's output directory). -/
def processSingleUrl (env : Env) (transcribe : String → Except Unit String)
    (llm_api_key : Option String) (enhance_transcript : Bool)
    (url : String) : Except Unit (Option String) :=
  match env.get_provider url with
  | none => .ok none
  | some provider =>
    match provider.get_metadata url with
    | .error _ => .ok none
    | .ok metadata =>
      match provider.download_audio url metadata with
      | .error _ => .ok none
      | .ok downloaded_file =>
        let is_transcript_file := downloaded_file.suffix == ".txt" &&
          containsList "transcript".toList (fileName downloaded_file).toList
        if is_transcript_file then
          let final_stem :=
            FileUtils.pyReplace downloaded_file.stem "_transcript" ""
          if enhance_transcript && llm_api_key.isSome then
            .ok (some (final_stem ++ ".mdx"))
          else
            .ok (some (final_stem ++ ".txt"))
        else
          match transcribe (fileName downloaded_file) with
          | .error _ => .error ()
          | .ok _ =>
            if enhance_transcript && llm_api_key.isSome then
              .ok (some (downloaded_file.stem ++ ".mdx"))
            else
              .ok (some (downloaded_file.stem ++ ".txt"))

end Processing

namespace Bulk

/-- The `original_to_expanded` mapping of
`BulkProcessor._update_bulk_file_with_expansion_context`: the provider's
expansion of the original URL, or `[original_url]` when that raises. -/
def originalToExpanded (expand : String → Except Unit (List String))
    (original_url : String) : List String :=
  match expand original_url with
  | .ok videos => videos
  | .error _ => [original_url]

/-- `BulkProcessor._update_bulk_file_with_expansion_context`: `none` means
the method returned without rewriting the bulk file (the
`if not successful_urls: return` early exit); `some remaining` means the
file was rewritten with exactly `remaining`. -/
def update_bulk_file_with_expansion_context
    (expand : String → Except Unit (List String))
    (original_urls successful_urls : List String) : Option (List String) :=
  if successful_urls.isEmpty then none
  else
    some (original_urls.filter (fun original_url =>
      !((originalToExpanded expand original_url).all
        (fun video_url => successful_urls.contains video_url))))

/-- The pending-work file's contents after the update (unchanged when the
method did not rewrite it). -/
def bulkFileAfter (expand : String → Except Unit (List String))
    (original_urls successful_urls : List String) : List String :=
  (update_bulk_file_with_expansion_context expand original_urls successful_urls).getD
    original_urls

end Bulk

namespace Providers

/-- Python `'...'.split('\n')`: unlike `splitLines`, a trailing newline
yields a final empty string. -/
def pySplitNl : List Char → List (List Char)
  | [] => [[]]
  | c :: rest =>
    if c = '\n' then [] :: pySplitNl rest
    else
      match pySplitNl rest with
      | [] => [[c]]
      | line :: rst => (c :: line) :: rst

/-- `[line.strip() for line in stdout.split('\n') if line.strip()]`. -/
def stdoutLines (stdout : String) : List String :=
  (((pySplitNl stdout.toList).map FileUtils.pyStrip).filter
    (fun line => !line.isEmpty)).map String.mk

/-- The environment of `core/youtube_provider.py`'s `extract_video_urls`:
its URL validation and classification helpers, the yt-dlp subprocess
(arguments to stdout, `.error` for a `CalledProcessError`), and
`extract_channel_playlists` reduced to the playlist URLs it yields. -/
structure YtEnv where
  validate_url : String → Bool
  get_url_type : String → String
  run_yt_dlp : List String → Except Unit String
  extract_channel_playlists : String → List String

/-- The yt-dlp command `extract_video_urls` builds: channel URLs add
`--playlist-end max_videos * 2` (when `max_videos` is truthy) and a
shorts-excluding match filter. -/
def ytCmd (url_type : String) (max_videos : Option Nat) (url : String) : List String :=
  ["yt-dlp", "--flat-playlist", "--print", "webpage_url", "--no-warnings"] ++
  (if url_type = "channel" then
    (match max_videos with
     | some m => if m ≠ 0 then ["--playlist-end", toString (m * 2)] else []
     | none => []) ++ ["--match-filter", "duration > 60"]
   else []) ++ [url]

/-- `YouTubeProvider.extract_video_urls` (`core/youtube_provider.py`), with
fuel for the `channel_playlists` recursion. -/
def extract_video_urls (env : YtEnv) : Nat → String → Option Nat → List String
  | 0, _, _ => []
  | fuel + 1, url, max_videos =>
    if !env.validate_url url then []
    else
      let url_type := env.get_url_type url
      if url_type = "video" then [url]
      else if url_type = "channel_playlists" then
        ((env.extract_channel_playlists url).map
          (fun playlist_url => extract_video_urls env fuel playlist_url max_videos)).flatten
      else
        let max_videos :=
          if url_type = "channel" && max_videos.isNone then some 10 else max_videos
        match env.run_yt_dlp (ytCmd url_type max_videos url) with
        | .error _ => []
        | .ok stdout =>
          let video_urls := stdoutLines stdout
          match max_videos with
          | some m =>
            if url_type = "channel" && m ≠ 0 && m < video_urls.length then
              video_urls.take m
            else video_urls
          | none => video_urls

/-- The environment of `core/tiktok_provider.py`'s `extract_user_videos`. -/
structure TtEnv where
  validate_url : String → Bool
  get_url_type : String → String
  run_yt_dlp : List String → Except Unit String

/-- The yt-dlp command `extract_user_videos` builds: `--playlist-end
max_videos` when `max_videos` is truthy. -/
def ttCmd (max_videos : Nat) (url : String) : List String :=
  ["yt-dlp", "--flat-playlist", "--print", "webpage_url", "--no-warnings"] ++
  (if max_videos ≠ 0 then ["--playlist-end", toString max_videos] else []) ++ [url]

/-- The per-line processing of `extract_user_videos`:
`result.stdout.strip().split('\n')`, then keep each stripped line that is
non-empty and validates. -/
def ttLines (validate : String → Bool) (stdout : String) : List String :=
  ((((pySplitNl (FileUtils.pyStrip stdout.toList)).map FileUtils.pyStrip).filter
    (fun line => !line.isEmpty && validate (String.mk line))).map String.mk)

/-- `TikTokProvider.extract_user_videos` (`core/tiktok_provider.py`);
`.error ()` models the `ValueError` raised on non-profile URLs. -/
def extract_user_videos (env : TtEnv) (url : String) (max_videos : Option Nat) :
    Except Unit (List String) :=
  if !env.validate_url url then .ok []
  else if env.get_url_type url ≠ "user" then .error ()
  else
    let m := max_videos.getD 20
    match env.run_yt_dlp (ttCmd m url) with
    | .error _ => .ok []
    | .ok stdout => .ok (ttLines env.validate_url stdout)

end Providers

namespace Fixtures

/-- A two-platform world for concrete evaluations: `"agg"` is a playlist
expanding to the videos `"v1"` and `"v2"`; every other URL is a plain
video. -/
def provA : Processing.Provider where
  get_content_type := fun u => if u = "agg" then "playlist" else "video"
  get_metadata := fun u =>
    if u = "agg" then
      .ok ⟨some "My List", some [⟨some "v1", none⟩, ⟨some "v2", none⟩]⟩
    else .ok ⟨some "Title", none⟩
  download_audio := fun _ _ => .ok ⟨"Title", ".wav"⟩

def envA : Processing.Env := ⟨fun _ => some provA⟩

/-- Worker behaviour where `"v1"` succeeds and everything else returns
`None`. -/
def workerA : String → List String → Processing.WorkerOutcome := fun u _ =>
  if u = "v1" then .ok "p1" else .failed

/-- Worker behaviour that raises on every job. -/
def workerExn : String → List String → Processing.WorkerOutcome := fun _ _ => .exn

/-- A provider whose metadata fetch always raises. -/
def provMetaFail : Processing.Provider where
  get_content_type := fun _ => "video"
  get_metadata := fun _ => .error ()
  download_audio := fun _ _ => .ok ⟨"Title", ".wav"⟩

def envMetaFail : Processing.Env := ⟨fun _ => some provMetaFail⟩

/-- A provider whose metadata carries no title and whose download yields an
extracted transcript file. -/
def provNoTitle : Processing.Provider where
  get_content_type := fun _ => "video"
  get_metadata := fun _ => .ok ⟨none, none⟩
  download_audio := fun _ _ => .ok ⟨"Video_transcript", ".txt"⟩

def envNoTitle : Processing.Env := ⟨fun _ => some provNoTitle⟩

def transcribeOk : String → Except Unit String := fun _ => .ok "text"

/-- A YouTube-provider environment whose external tool reports 12 entries
for every query. -/
def ytEnvA : Providers.YtEnv where
  validate_url := fun _ => true
  get_url_type := fun _ => "channel"
  run_yt_dlp := fun _ =>
    .ok "u1\nu2\nu3\nu4\nu5\nu6\nu7\nu8\nu9\nu10\nu11\nu12"
  extract_channel_playlists := fun _ => []

/-- A TikTok-provider environment whose external tool ignores the
requested `--playlist-end 20` and reports 21 entries. -/
def ttEnvA : Providers.TtEnv where
  validate_url := fun _ => true
  get_url_type := fun _ => "user"
  run_yt_dlp := fun _ =>
    .ok ("u1\nu2\nu3\nu4\nu5\nu6\nu7\nu8\nu9\nu10\nu11\nu12\nu13\nu14\nu15" ++
         "\nu16\nu17\nu18\nu19\nu20\nu21")

/-- The 21 video URLs `ttEnvA`'s tool reports. -/
def tt21 : List String :=
  ["u1", "u2", "u3", "u4", "u5", "u6", "u7", "u8", "u9", "u10", "u11", "u12",
   "u13", "u14", "u15", "u16", "u17", "u18", "u19", "u20", "u21"]

end Fixtures

namespace FileUtils

theorem mem_collapseAux {c : Char} :
    ∀ (b : Bool) (l : List Char), c ∈ collapseAux b l →
      c = ' ' ∨ (c ∈ l ∧ isSpaceChar c = false)
  | _, [], h => by simp [collapseAux] at h
  | b, d :: rest, h => by
    by_cases hd : isSpaceChar d
    · cases b <;> simp [collapseAux, hd] at h
      · rcases h with h | h
        · exact Or.inl h
        · rcases mem_collapseAux true rest h with h | ⟨h1, h2⟩
          · exact Or.inl h
          · exact Or.inr ⟨List.mem_cons_of_mem _ h1, h2⟩
      · rcases mem_collapseAux true rest h with h | ⟨h1, h2⟩
        · exact Or.inl h
        · exact Or.inr ⟨List.mem_cons_of_mem _ h1, h2⟩
    · simp [collapseAux, hd] at h
      rcases h with rfl | h
      · exact Or.inr ⟨List.mem_cons_self _ _, by simpa using hd⟩
      · rcases mem_collapseAux false rest h with h | ⟨h1, h2⟩
        · exact Or.inl h
        · exact Or.inr ⟨List.mem_cons_of_mem _ h1, h2⟩

theorem head?_collapseAux_true :
    ∀ (l : List Char) (c : Char), (collapseAux true l).head? = some c →
      isSpaceChar c = false
  | [], c, h => by simp [collapseAux] at h
  | d :: rest, c, h => by
    by_cases hd : isSpaceChar d
    · simp only [collapseAux, hd, if_true] at h
      exact head?_collapseAux_true rest c h
    · simp [collapseAux, hd] at h
      rcases h with ⟨rfl, -⟩
      simpa using hd

theorem chain_collapseAux : ∀ (b : Bool) (l : List Char), NoAdjSpaces (collapseAux b l)
  | _, [] => by simp [collapseAux, NoAdjSpaces]
  | b, d :: rest => by
    by_cases hd : isSpaceChar d
    · cases b
      · simp only [collapseAux, hd, if_true, Bool.false_eq_true, if_false]
        rw [NoAdjSpaces, List.chain'_cons']
        refine ⟨?_, chain_collapseAux true rest⟩
        intro y hy
        have := head?_collapseAux_true rest y hy
        simp [this]
      · simp only [collapseAux, hd, if_true]
        exact chain_collapseAux true rest
    · simp only [collapseAux, hd, if_false, Bool.false_eq_true]
      rw [NoAdjSpaces, List.chain'_cons']
      refine ⟨?_, chain_collapseAux false rest⟩
      intro y hy
      simp [hd]

theorem collapseAux_true_eq_false (l : List Char)
    (h : ∀ c, l.head? = some c → isSpaceChar c = false) :
    collapseAux true l = collapseAux false l := by
  cases l with
  | nil => rfl
  | cons c rest =>
    have := h c rfl
    simp [collapseAux, this]

theorem collapseAux_eq_self :
    ∀ (l : List Char), (∀ c ∈ l, isSpaceChar c = true → c = ' ') → NoAdjSpaces l →
      collapseAux false l = l
  | [], _, _ => rfl
  | c :: rest, hws, hch => by
    have hchTail : NoAdjSpaces rest := List.Chain'.tail hch
    have ihRest : collapseAux false rest = rest :=
      collapseAux_eq_self rest (fun d hd => hws d (List.mem_cons_of_mem _ hd)) hchTail
    by_cases hc : isSpaceChar c
    · have hc' : c = ' ' := hws c (List.mem_cons_self _ _) hc
      have hhead : ∀ d, rest.head? = some d → isSpaceChar d = false := by
        intro d hd
        cases rest with
        | nil => simp at hd
        | cons e rest' =>
          simp at hd
          subst hd
          rw [NoAdjSpaces, List.chain'_cons] at hch
          by_contra hne
          exact hch.1 ⟨hc, by simpa using hne⟩
      simp only [collapseAux, hc, if_true, Bool.false_eq_true, if_false]
      rw [collapseAux_true_eq_false rest hhead, ihRest, hc']
    · simp only [collapseAux, hc, if_false, Bool.false_eq_true, ihRest]

theorem dropWhile_eq_self_of_head {p : Char → Bool} :
    ∀ (l : List Char), (∀ c, l.head? = some c → p c = false) → l.dropWhile p = l
  | [], _ => rfl
  | c :: rest, h => by
    have := h c rfl
    simp [List.dropWhile_cons, this]

theorem head?_dropWhile_false {p : Char → Bool} :
    ∀ (l : List Char) (c : Char), (l.dropWhile p).head? = some c → p c = false
  | [], c, h => by simp at h
  | d :: rest, c, h => by
    by_cases hd : p d
    · rw [List.dropWhile_cons_of_pos hd] at h
      exact head?_dropWhile_false rest c h
    · rw [List.dropWhile_cons_of_neg hd] at h
      simp at h
      rcases h with ⟨rfl, -⟩
      simpa using hd

theorem prefix_head?_eq {l m : List Char} {c : Char}
    (h : l <+: m) (hc : l.head? = some c) : m.head? = some c := by
  rcases h with ⟨t, rfl⟩
  cases l with
  | nil => simp at hc
  | cons d l' => simpa using hc

theorem pyStrip_prefix_of_dropWhile (l : List Char) :
    pyStrip l <+: l.dropWhile isSpaceChar := by
  rw [pyStrip]
  have h1 : (l.dropWhile isSpaceChar).reverse.dropWhile isSpaceChar <:+
      (l.dropWhile isSpaceChar).reverse := List.dropWhile_suffix _
  rcases h1 with ⟨t, ht⟩
  refine ⟨t.reverse, ?_⟩
  have := congrArg List.reverse ht
  simpa using this

theorem mem_pyStrip {c : Char} {l : List Char} (h : c ∈ pyStrip l) : c ∈ l :=
  (List.dropWhile_suffix isSpaceChar).subset ((pyStrip_prefix_of_dropWhile l).subset h)

theorem head?_pyStrip {l : List Char} {c : Char} (h : (pyStrip l).head? = some c) :
    isSpaceChar c = false :=
  head?_dropWhile_false l c (prefix_head?_eq (pyStrip_prefix_of_dropWhile l) h)

theorem getLast?_pyStrip {l : List Char} {c : Char} (h : (pyStrip l).getLast? = some c) :
    isSpaceChar c = false := by
  rw [pyStrip, List.getLast?_reverse] at h
  exact head?_dropWhile_false _ c h

theorem prefix_dropLastSegment (m : List Char) : dropLastSegment m <+: m := by
  rw [dropLastSegment]
  split
  · have h1 : m.reverse.dropWhile (fun c => !(c = ' ')) <:+ m.reverse :=
      List.dropWhile_suffix _
    have h2 : (m.reverse.dropWhile (fun c => !(c = ' '))).tail <:+
        m.reverse.dropWhile (fun c => !(c = ' ')) := List.tail_suffix _
    rcases h2.trans h1 with ⟨t, ht⟩
    refine ⟨t.reverse, ?_⟩
    have := congrArg List.reverse ht
    simpa using this
  · exact List.prefix_refl m

/-- When `m` contains a space, `rsplit(' ', 1)` decomposes `m` as the
retained prefix, the last space, and the (space-free) final segment. -/
theorem dropLastSegment_decomp (m : List Char) (h : ' ' ∈ m) :
    ∃ t : List Char, m = dropLastSegment m ++ ' ' :: t := by
  have hsplit := List.takeWhile_append_dropWhile (p := fun c => !(c = ' ')) (l := m.reverse)
  have hne : m.reverse.dropWhile (fun c => !(c = ' ')) ≠ [] := by
    intro hnil
    rw [List.dropWhile_eq_nil_iff] at hnil
    have := hnil ' ' (by simpa using h)
    simp at this
  obtain ⟨d, rest, hd⟩ := List.exists_cons_of_ne_nil hne
  have hdval : d = ' ' := by
    have := head?_dropWhile_false (p := fun c => !(c = ' ')) m.reverse d
    rw [hd] at this
    have := this rfl
    simpa using this
  subst hdval
  refine ⟨(m.reverse.takeWhile (fun c => !(c = ' '))).reverse, ?_⟩
  have hm : m.reverse.takeWhile (fun c => !(c = ' ')) ++ ' ' :: rest = m.reverse := by
    rw [← hd, hsplit]
  have hrev := congrArg List.reverse hm
  rw [List.reverse_reverse] at hrev
  have hseg : dropLastSegment m = rest.reverse := by
    rw [dropLastSegment, if_pos h, hd]
    simp
  rw [hseg]
  conv_lhs => rw [← hrev]
  simp

theorem pyStrip_eq_self {l : List Char}
    (h1 : ∀ c, l.head? = some c → isSpaceChar c = false)
    (h2 : ∀ c, l.getLast? = some c → isSpaceChar c = false) :
    pyStrip l = l := by
  rw [pyStrip, dropWhile_eq_self_of_head l h1, dropWhile_eq_self_of_head, List.reverse_reverse]
  intro c hc
  rw [List.head?_reverse] at hc
  exact h2 c hc

theorem mem_of_head?_eq {l : List Char} {c : Char} (h : l.head? = some c) : c ∈ l := by
  cases l with
  | nil => simp at h
  | cons d rest =>
    simp at h
    simp [h]

theorem mem_of_getLast?_eq {l : List Char} {c : Char} (h : l.getLast? = some c) : c ∈ l := by
  rw [← List.head?_reverse] at h
  have := mem_of_head?_eq h
  simpa using this

theorem head?_take {l : List Char} {k : Nat} {c : Char}
    (h : (l.take k).head? = some c) : l.head? = some c := by
  cases k with
  | zero => simp at h
  | succ n =>
    cases l with
    | nil => simp at h
    | cons d rest => simpa using h

/-- Invariant transport across the truncation step. -/
theorem truncateName_invariants (t : List Char)
    (hws : ∀ c ∈ t, isSpaceChar c = true → c = ' ')
    (hch : NoAdjSpaces t)
    (hlast : ∀ c, t.getLast? = some c → isSpaceChar c = false) :
    truncateName 100 t <+: t ∧ (truncateName 100 t).length ≤ 100 ∧
      (∀ c, (truncateName 100 t).getLast? = some c → isSpaceChar c = false) := by
  rw [truncateName]
  split
  case isTrue hlen =>
    set m := t.take 100 with hm
    have hmpre : m <+: t := List.take_prefix _ _
    have hpre : dropLastSegment m <+: t := (prefix_dropLastSegment m).trans hmpre
    refine ⟨hpre, ?_, ?_⟩
    · have h1 := (prefix_dropLastSegment m).length_le
      have h2 : m.length ≤ 100 := by
        rw [hm]
        exact List.length_take_le _ _
      omega
    · intro c hc
      by_cases hsp : ' ' ∈ m
      · obtain ⟨rest, hdec⟩ := dropLastSegment_decomp m hsp
        have hchm : NoAdjSpaces m := List.Chain'.prefix hch hmpre
        rw [hdec, NoAdjSpaces, List.chain'_append] at hchm
        have := hchm.2.2 c (by simpa using hc) ' ' (by simp)
        by_contra hne
        exact this ⟨by simpa using hne, by decide⟩
      · rw [dropLastSegment, if_neg hsp] at hc
        have hcm : c ∈ m := mem_of_getLast?_eq hc
        by_contra hne
        have : c = ' ' := hws c (hmpre.subset hcm) (by simpa using hne)
        exact hsp (this ▸ hcm)
  case isFalse hlen =>
    exact ⟨List.prefix_refl t, by omega, hlast⟩

/-- The final shape of `sanitize_folder_name` applied after the whitespace
collapse and strip: the truncation plus the `"unknown"` fallback yield a
canonical name. -/
theorem canon_post (t : List Char)
    (hsafe : ∀ c ∈ t, isSafeChar c = true)
    (hws : ∀ c ∈ t, isSpaceChar c = true → c = ' ')
    (hch : NoAdjSpaces t)
    (hhead : ∀ c, t.head? = some c → isSpaceChar c = false)
    (hlast : ∀ c, t.getLast? = some c → isSpaceChar c = false) :
    Canon 100 (if (truncateName 100 t).isEmpty then "unknown".toList
               else truncateName 100 t) := by
  obtain ⟨hpre, hlen, hlast'⟩ := truncateName_invariants t hws hch hlast
  split
  case isTrue h =>
    have hu : "unknown".toList = ['u', 'n', 'k', 'n', 'o', 'w', 'n'] := rfl
    refine ⟨?_, ?_, ?_, ?_, ?_, ?_, ?_⟩ <;>
      first
        | decide
        | (rw [NoAdjSpaces, hu]
           simp only [List.chain'_cons, List.chain'_singleton, and_true]
           decide)
  case isFalse h =>
    have hne : truncateName 100 t ≠ [] := by
      intro hnil
      rw [hnil] at h
      simp at h
    refine ⟨?_, ?_, ?_, ?_, ?_, hlen, hne⟩
    · exact fun c hc => hsafe c (hpre.subset hc)
    · exact fun c hc => hws c (hpre.subset hc)
    · exact List.Chain'.prefix hch hpre
    · exact fun c hc => hhead c (prefix_head?_eq hpre hc)
    · exact hlast'

theorem canon_sanitizeList (name : List Char) : Canon 100 (sanitizeList 100 name) := by
  have hsafe2 : ∀ c ∈ (name.filter (fun c => !isForbidden c)).filter isSafeChar,
      isSafeChar c = true := by
    intro c hc
    exact (List.mem_filter.mp hc).2
  set s2 := (name.filter (fun c => !isForbidden c)).filter isSafeChar with hs2
  set s3 := collapseSpaces s2 with hs3
  have hsafe3 : ∀ c ∈ s3, isSafeChar c = true := by
    intro c hc
    rcases mem_collapseAux false s2 hc with rfl | ⟨h1, -⟩
    · decide
    · exact hsafe2 c h1
  have hws3 : ∀ c ∈ s3, isSpaceChar c = true → c = ' ' := by
    intro c hc hsp
    rcases mem_collapseAux false s2 hc with rfl | ⟨-, h2⟩
    · rfl
    · rw [hsp] at h2
      exact absurd h2 (by simp)
  have hch3 : NoAdjSpaces s3 := chain_collapseAux false s2
  set s4 := pyStrip s3 with hs4
  have hsafe4 : ∀ c ∈ s4, isSafeChar c = true := fun c hc => hsafe3 c (mem_pyStrip hc)
  have hws4 : ∀ c ∈ s4, isSpaceChar c = true → c = ' ' :=
    fun c hc => hws3 c (mem_pyStrip hc)
  have hch4 : NoAdjSpaces s4 :=
    List.Chain'.prefix (List.Chain'.suffix hch3 (List.dropWhile_suffix isSpaceChar))
      (pyStrip_prefix_of_dropWhile s3)
  have hhead4 : ∀ c, s4.head? = some c → isSpaceChar c = false :=
    fun c hc => head?_pyStrip hc
  have hlast4 : ∀ c, s4.getLast? = some c → isSpaceChar c = false :=
    fun c hc => getLast?_pyStrip hc
  exact canon_post s4 hsafe4 hws4 hch4 hhead4 hlast4

/-- A character kept by the second regex class is never one of the nine
characters erased by the first. -/
theorem safe_not_forbidden {c : Char} (h : isSafeChar c = true) :
    isForbidden c = false := by
  by_contra hne
  have hf : isForbidden c = true := by simpa using hne
  rw [isForbidden] at hf
  simp only [Bool.or_eq_true, decide_eq_true_eq] at hf
  rcases hf with ((((((((rfl | rfl) | rfl) | rfl) | rfl) | rfl) | rfl) | rfl) | rfl) <;>
    revert h <;> decide

/-- Canonical names are fixed points of `sanitize_folder_name`. -/
theorem sanitizeList_eq_self {l : List Char} (h : Canon 100 l) :
    sanitizeList 100 l = l := by
  have hfilter1 : l.filter (fun c => !isForbidden c) = l := by
    rw [List.filter_eq_self]
    intro c hc
    simp [safe_not_forbidden (h.safe c hc)]
  have hfilter2 : l.filter isSafeChar = l := by
    rw [List.filter_eq_self]
    exact h.safe
  have hcollapse : collapseSpaces l = l := collapseAux_eq_self l h.ws h.chain
  have hstrip : pyStrip l = l := pyStrip_eq_self h.headOk h.lastOk
  have htrunc : truncateName 100 l = l := by
    rw [truncateName, if_neg]
    have := h.lenLe
    omega
  have hempty : l.isEmpty = false := by
    cases l with
    | nil => exact absurd rfl h.ne
    | cons c rest => rfl
  rw [sanitizeList]
  simp only [hfilter1, hfilter2]
  rw [hcollapse, hstrip, htrunc, hempty]
  rfl

end FileUtils

/-- C7: Folder-name sanitization is idempotent — for every string `s`,
`sanitize_folder_name (sanitize_folder_name s) = sanitize_folder_name s`
at the default `max_length` of 100. -/
theorem sanitize_folder_name_idempotent (s : String) :
    FileUtils.sanitize_folder_name (FileUtils.sanitize_folder_name s) =
      FileUtils.sanitize_folder_name s :=
  congrArg String.mk
    (FileUtils.sanitizeList_eq_self (FileUtils.canon_sanitizeList s.toList))

/-- C10: `sanitize_folder_name` is total and always returns a usable
directory name: non-empty (falling back to `"unknown"`), at most 100
characters at the default `max_length`, free of the characters
`< > : " / \ | ? *`, and with no leading or trailing whitespace. -/
theorem sanitize_folder_name_usable (s : String) :
    FileUtils.sanitize_folder_name s ≠ "" ∧
    (FileUtils.sanitize_folder_name s).length ≤ 100 ∧
    (∀ c ∈ (FileUtils.sanitize_folder_name s).toList,
      FileUtils.isForbidden c = false) ∧
    (∀ c, (FileUtils.sanitize_folder_name s).toList.head? = some c →
      FileUtils.isSpaceChar c = false) ∧
    (∀ c, (FileUtils.sanitize_folder_name s).toList.getLast? = some c →
      FileUtils.isSpaceChar c = false) := by
  have h := FileUtils.canon_sanitizeList s.toList
  refine ⟨?_, h.lenLe, ?_, h.headOk, h.lastOk⟩
  · intro hEq
    apply h.ne
    have := congrArg String.toList hEq
    simpa using this
  · exact fun c hc => FileUtils.safe_not_forbidden (h.safe c hc)

namespace FileUtils

theorem splitLines_append {u r : List Char} (h : '\n' ∉ u) :
    splitLines (u ++ '\n' :: r) = u :: splitLines r := by
  induction u with
  | nil => simp [splitLines]
  | cons c u' ih =>
    have hc : ¬(c = '\n') := fun hEq => h (hEq ▸ List.mem_cons_self _ _)
    have hnotin : '\n' ∉ u' := fun hm => h (List.mem_cons_of_mem _ hm)
    simp only [List.cons_append, splitLines, if_neg hc, List.append_eq, ih hnotin]

/-- Universal-newlines translation leaves a terminator-free line and its
`\n` terminator unchanged. -/
theorem translateAux_line {u tail : List Char} (hr : '\r' ∉ u) (hn : '\n' ∉ u) :
    FileUtils.translateAux false (u ++ '\n' :: tail) =
      u ++ '\n' :: FileUtils.translateAux false tail := by
  induction u with
  | nil => simp [FileUtils.translateAux]
  | cons c u' ih =>
    have hcr : ¬(c = '\r') := fun hEq => hr (hEq ▸ List.mem_cons_self _ _)
    have hcn : ¬(c = '\n') := fun hEq => hn (hEq ▸ List.mem_cons_self _ _)
    have hr' : '\r' ∉ u' := fun hm => hr (List.mem_cons_of_mem _ hm)
    have hn' : '\n' ∉ u' := fun hm => hn (List.mem_cons_of_mem _ hm)
    simp only [List.cons_append, FileUtils.translateAux, if_neg hcr, if_neg hcn,
      List.append_eq, ih hr' hn']

/-- `translateAux_line` at the whole-file level. -/
theorem translateNewlines_line {u tail : List Char}
    (hr : '\r' ∉ u) (hn : '\n' ∉ u) :
    FileUtils.translateNewlines (u ++ '\n' :: tail) =
      u ++ '\n' :: FileUtils.translateNewlines tail :=
  translateAux_line hr hn

end FileUtils

/-- C8 counterexample: saving the one-element URL list `["#u"]` and
reloading yields the empty list, not the original list — the loader's
comment filter drops the line, so the round trip fails for arbitrary
strings. -/
theorem save_load_round_trip_cex :
    FileUtils.load_urls_from_file (FileUtils.save_urls_to_file ["#u"]) = [] ∧
    (["#u"] : List String) ≠ [] := by
  constructor
  · rfl
  · intro h
    simpa using congrArg List.length h

/-- C8 (amended): the save/load round trip holds for URL lists whose
entries are non-empty, already stripped (no leading or trailing ASCII
whitespace), contain no newline and no carriage return (both are line
terminators under the reader's universal-newlines mode), and do not start
with `#` — exactly the lines the loader passes through unchanged. -/
theorem save_load_round_trip (urls : List String)
    (h : ∀ u ∈ urls, FileUtils.pyStrip u.toList = u.toList ∧ u ≠ "" ∧
      '\n' ∉ u.toList ∧ '\r' ∉ u.toList ∧ u.toList.head? ≠ some '#') :
    FileUtils.load_urls_from_file (FileUtils.save_urls_to_file urls) = urls := by
  induction urls with
  | nil => rfl
  | cons u rest ih =>
    obtain ⟨hstrip, hne, hnl, hcr, hhash⟩ := h u (List.mem_cons_self _ _)
    have hrest := ih (fun v hv => h v (List.mem_cons_of_mem _ hv))
    have hsave : FileUtils.save_urls_to_file (u :: rest) =
        u.toList ++ '\n' :: FileUtils.save_urls_to_file rest := by
      rw [FileUtils.save_urls_to_file, List.map_cons, List.flatten_cons]
      simp [FileUtils.save_urls_to_file]
    rw [FileUtils.load_urls_from_file, hsave,
      FileUtils.translateNewlines_line hcr hnl, FileUtils.splitLines_append hnl]
    have htoList : u.toList ≠ [] := by
      intro hnil
      apply hne
      have := congrArg String.mk hnil
      simpa using this
    have hkeep : (!(FileUtils.pyStrip u.toList).isEmpty &&
        !(u.toList.head? == some '#')) = true := by
      rw [hstrip]
      simp only [Bool.and_eq_true, Bool.not_eq_true']
      constructor
      · simpa [List.isEmpty_iff] using htoList
      · simpa using hhash
    rw [List.filter_cons, if_pos hkeep, List.map_cons, hstrip]
    rw [FileUtils.load_urls_from_file] at hrest
    rw [hrest]
    congr 1

/-- C8 witness: a concrete well-formed list round-trips. -/
theorem save_load_round_trip_witness :
    FileUtils.load_urls_from_file
      (FileUtils.save_urls_to_file ["url-a", "url-b"]) = ["url-a", "url-b"] :=
  save_load_round_trip ["url-a", "url-b"] (by decide)

namespace Processing

/-- Every pair yielded by `_expand_url` comes from the `video` branch: its
URL has a provider and that provider classifies it as a video. -/
theorem mem_expandUrl_classified (env : Env) :
    ∀ (fuel : Nat) (url : String) (context : List String)
      (job : String × List String), job ∈ expandUrl env fuel url context →
      classifiedAs env job.1 "video" = true
  | 0, url, context, job, hjob => by simp [expandUrl] at hjob
  | fuel + 1, url, context, job, hjob => by
    rw [expandUrl] at hjob
    cases henv : env.get_provider url with
    | none => rw [henv] at hjob; simp at hjob
    | some provider =>
      rw [henv] at hjob
      dsimp only at hjob
      by_cases h1 : provider.get_content_type url = "unknown"
      · rw [if_pos h1] at hjob; simp at hjob
      rw [if_neg h1] at hjob
      by_cases h2 : provider.get_content_type url = "channel" ∨
          provider.get_content_type url = "playlist" ∨
          provider.get_content_type url = "profile"
      · rw [if_pos h2] at hjob
        cases hm : provider.get_metadata url with
        | error e => rw [hm] at hjob; simp at hjob
        | ok metadata =>
          rw [hm] at hjob
          dsimp only at hjob
          cases hent : metadata.entries with
          | none => rw [hent] at hjob; simp at hjob
          | some entries =>
            rw [hent] at hjob
            dsimp only at hjob
            by_cases hemp : entries.isEmpty
            · rw [if_pos hemp] at hjob; simp at hjob
            rw [if_neg hemp] at hjob
            rw [List.mem_flatten] at hjob
            obtain ⟨inner, hinner, hjmem⟩ := hjob
            rw [List.mem_map] at hinner
            obtain ⟨entry, hentry, hje⟩ := hinner
            cases hu : entryUrl entry with
            | none => rw [hu] at hje; rw [← hje] at hjmem; simp at hjmem
            | some entry_url =>
              rw [hu] at hje
              rw [← hje] at hjmem
              exact mem_expandUrl_classified env fuel entry_url _ job hjmem
      · rw [if_neg h2] at hjob
        by_cases h3 : provider.get_content_type url = "video"
        · rw [if_pos h3] at hjob
          simp at hjob
          rw [hjob]
          simp [classifiedAs, henv, h3]
        · rw [if_neg h3] at hjob; simp at hjob

/-- A video-classified URL expands to exactly itself with the incoming
context. -/
theorem expandUrl_video (env : Env) (fuel : Nat) (url : String)
    (context : List String) (h : classifiedAs env url "video" = true) :
    expandUrl env (fuel + 1) url context = [(url, context)] := by
  rw [classifiedAs] at h
  cases henv : env.get_provider url with
  | none => rw [henv] at h; simp at h
  | some provider =>
    rw [henv] at h
    have hvid : provider.get_content_type url = "video" := by
      simpa using h
    rw [expandUrl, henv]
    dsimp only
    rw [hvid]
    simp

theorem flatten_singletons {α β : Type} (f : α → List β) (g : α → β) :
    ∀ (es : List α), (∀ e ∈ es, f e = [g e]) → (es.map f).flatten = es.map g
  | [], _ => rfl
  | e :: rest, h => by
    rw [List.map_cons, List.flatten_cons, h e (List.mem_cons_self _ _),
      List.map_cons, List.singleton_append,
      flatten_singletons f g rest (fun x hx => h x (List.mem_cons_of_mem _ hx))]

end Processing

/-- C1: every Job emitted by URL expansion is classified `video` by its
provider — never `playlist`, `channel`, `profile` or `unknown` — and in
particular a provider exists for it; provider-less and unknown URLs
contribute no Jobs. -/
theorem expand_url_only_videos (env : Processing.Env) (fuel : Nat)
    (url : String) (context : List String) (job : String × List String)
    (hjob : job ∈ Processing.expandUrl env fuel url context) :
    Processing.classifiedAs env job.1 "video" = true ∧
    Processing.classifiedAs env job.1 "playlist" = false ∧
    Processing.classifiedAs env job.1 "channel" = false ∧
    Processing.classifiedAs env job.1 "profile" = false ∧
    Processing.classifiedAs env job.1 "unknown" = false ∧
    env.get_provider job.1 ≠ none := by
  have hvid := Processing.mem_expandUrl_classified env fuel url context job hjob
  rw [Processing.classifiedAs] at hvid
  cases henv : env.get_provider job.1 with
  | none => rw [henv] at hvid; simp at hvid
  | some provider =>
    rw [henv] at hvid
    have htype : provider.get_content_type job.1 = "video" := by simpa using hvid
    refine ⟨?_, ?_, ?_, ?_, ?_, by simp [henv]⟩ <;>
      simp [Processing.classifiedAs, henv, htype]

/-- C1 witness: in the concrete world `envA`, the Job for `"v1"` produced
by expanding the playlist `"agg"` is video-classified. -/
theorem expand_url_only_videos_witness :
    Processing.classifiedAs Fixtures.envA "v1" "video" = true ∧
    Processing.classifiedAs Fixtures.envA "v1" "playlist" = false ∧
    Processing.classifiedAs Fixtures.envA "v1" "channel" = false ∧
    Processing.classifiedAs Fixtures.envA "v1" "profile" = false ∧
    Processing.classifiedAs Fixtures.envA "v1" "unknown" = false ∧
    Fixtures.envA.get_provider "v1" ≠ none :=
  expand_url_only_videos Fixtures.envA 5 "agg" []
    ("v1", ["My List"]) (by decide)

/-- C4: an aggregate URL whose metadata lists `N` entries, each carrying a
URL classified as a video, expands to exactly `N` Jobs, and every Job's
FolderContext is the incoming context with the aggregate's sanitized title
appended as one segment. -/
theorem expand_aggregate_exact (env : Processing.Env) (fuel : Nat)
    (url title : String) (context : List String)
    (provider : Processing.Provider) (metadata : Processing.Metadata)
    (entries : List Processing.Entry) (childUrl : Processing.Entry → String)
    (henv : env.get_provider url = some provider)
    (hagg : provider.get_content_type url = "channel" ∨
      provider.get_content_type url = "playlist" ∨
      provider.get_content_type url = "profile")
    (hm : provider.get_metadata url = .ok metadata)
    (htitle : metadata.title = some title)
    (hent : metadata.entries = some entries)
    (hne : entries ≠ [])
    (hchild : ∀ e ∈ entries, Processing.entryUrl e = some (childUrl e) ∧
      Processing.classifiedAs env (childUrl e) "video" = true) :
    Processing.expandUrl env (fuel + 2) url context =
      entries.map (fun e =>
        (childUrl e, context ++ [FileUtils.sanitize_folder_name title])) ∧
    (Processing.expandUrl env (fuel + 2) url context).length = entries.length := by
  have hunknown : ¬ provider.get_content_type url = "unknown" := by
    rcases hagg with h | h | h <;> rw [h] <;> decide
  have hmain : Processing.expandUrl env (fuel + 2) url context =
      entries.map (fun e =>
        (childUrl e, context ++ [FileUtils.sanitize_folder_name title])) := by
    rw [Processing.expandUrl, henv]
    dsimp only
    rw [if_neg hunknown, if_pos hagg, hm]
    dsimp only
    rw [hent]
    dsimp only
    rw [if_neg (by simpa [List.isEmpty_iff] using hne), htitle]
    simp only [Option.getD_some]
    refine Processing.flatten_singletons _ _ entries ?_
    intro e he
    obtain ⟨hu, hv⟩ := hchild e he
    rw [hu]
    exact Processing.expandUrl_video env fuel (childUrl e) _ hv
  exact ⟨hmain, by rw [hmain, List.length_map]⟩

/-- C4 witness: in `envA` the playlist `"agg"` with two valid video
children expands to exactly two Jobs sharing the context
`["My List"]`. -/
theorem expand_aggregate_exact_witness :
    Processing.expandUrl Fixtures.envA 5 "agg" [] =
      [("v1", ["My List"]), ("v2", ["My List"])] ∧
    (Processing.expandUrl Fixtures.envA 5 "agg" []).length = 2 := by
  have h := expand_aggregate_exact Fixtures.envA 3 "agg" "My List" []
    Fixtures.provA ⟨some "My List", some [⟨some "v1", none⟩, ⟨some "v2", none⟩]⟩
    [⟨some "v1", none⟩, ⟨some "v2", none⟩]
    (fun e => (Processing.entryUrl e).getD "")
    rfl (by decide) rfl rfl rfl (by decide) (by decide)
  exact ⟨h.1.trans (by decide), h.2⟩

/-- C3 counterexample: with input `["agg"]`, whose playlist expands to the
videos `"v1"` and `"v2"`, the results mapping of `process_urls` has two
entries keyed by the expanded video URLs — the aggregate input URL `"agg"`
is not a key at all, so the mapping is not keyed by originating input
URL. -/
theorem process_urls_not_keyed_by_original :
    (Processing.process_urls Fixtures.envA Fixtures.workerA 5 ["agg"]).map
      Prod.fst = ["v1", "v2"] ∧
    "agg" ∉ (Processing.process_urls Fixtures.envA Fixtures.workerA 5
      ["agg"]).map Prod.fst := by
  constructor
  · decide
  · decide

/-- C3 (amended): the results mapping of `process_urls` is keyed by the
expanded video URLs, one entry per expanded Job in job order, and every
key is classified `video` by its provider — an aggregate input URL appears
as a key only if it is itself one of the expanded video URLs. -/
theorem process_urls_keyed_by_video (env : Processing.Env)
    (worker : String → List String → Processing.WorkerOutcome)
    (fuel : Nat) (urls : List String) :
    (Processing.process_urls env worker fuel urls).map Prod.fst =
      (Processing.tasksOf env fuel urls).map Prod.fst ∧
    ∀ entry ∈ Processing.process_urls env worker fuel urls,
      Processing.classifiedAs env entry.1 "video" = true := by
  constructor
  · rw [Processing.process_urls, List.map_map]
    rfl
  · intro entry hentry
    rw [Processing.process_urls, List.mem_map] at hentry
    obtain ⟨task, htask, hEq⟩ := hentry
    rw [Processing.tasksOf, List.mem_flatten] at htask
    obtain ⟨inner, hinner, htmem⟩ := htask
    rw [List.mem_map] at hinner
    obtain ⟨url, hurl, hinnerEq⟩ := hinner
    rw [← hinnerEq] at htmem
    have := Processing.mem_expandUrl_classified env fuel url [] task htmem
    rw [← hEq]
    exact this

/-- C3 amended-claim witness at the concrete world `envA`. -/
theorem process_urls_keyed_by_video_witness :
    (Processing.process_urls Fixtures.envA Fixtures.workerA 5 ["agg"]).map
        Prod.fst =
      (Processing.tasksOf Fixtures.envA 5 ["agg"]).map Prod.fst :=
  (process_urls_keyed_by_video Fixtures.envA Fixtures.workerA 5 ["agg"]).1

/-- C5: exceptions never cross the worker boundary — for every submitted
Job the orchestrator's results contain an entry keyed by that Job's URL
holding the worker's outcome (`None` both for a returned `None` and for a
raised exception), and the results collection has exactly one entry per
submitted Job. -/
theorem process_urls_covers_all_jobs (env : Processing.Env)
    (worker : String → List String → Processing.WorkerOutcome)
    (fuel : Nat) (urls : List String) (task : String × List String)
    (htask : task ∈ Processing.tasksOf env fuel urls) :
    (task.1, Processing.resultOf (worker task.1 task.2)) ∈
      Processing.process_urls env worker fuel urls ∧
    (worker task.1 task.2 = .exn →
      (task.1, (none : Option String)) ∈
        Processing.process_urls env worker fuel urls) ∧
    (Processing.process_urls env worker fuel urls).length =
      (Processing.tasksOf env fuel urls).length := by
  refine ⟨?_, ?_, ?_⟩
  · exact List.mem_map_of_mem _ htask
  · intro hexn
    have h := List.mem_map_of_mem
      (fun t : String × List String => (t.1, Processing.resultOf (worker t.1 t.2)))
      htask
    simp only at h
    rw [hexn] at h
    exact h
  · rw [Processing.process_urls, List.length_map]

/-- C5 witness: with an always-raising worker, the Job for `"v1"` still
yields a `None` entry in the results. -/
theorem process_urls_covers_all_jobs_witness :
    ("v1", Processing.resultOf (Fixtures.workerExn "v1" ["My List"])) ∈
      Processing.process_urls Fixtures.envA Fixtures.workerExn 5 ["agg"] ∧
    ("v1", (none : Option String)) ∈
      Processing.process_urls Fixtures.envA Fixtures.workerExn 5 ["agg"] := by
  have h := process_urls_covers_all_jobs Fixtures.envA Fixtures.workerExn 5
    ["agg"] ("v1", ["My List"]) (by decide)
  exact ⟨h.1, h.2.1 rfl⟩

/-- C6 counterexample: in a world where the provider's metadata fetch
raises, `_process_single_url` returns `None` — the Job fails instead of
continuing with placeholder metadata to a transcript result. -/
theorem metadata_failure_fails_job_cex :
    Processing.processSingleUrl Fixtures.envMetaFail Fixtures.transcribeOk
      none false "v" = Except.ok none ∧
    Fixtures.provMetaFail.get_metadata "v" = Except.error () :=
  ⟨rfl, rfl⟩

/-- C6 (amended): in `_process_single_url` a metadata-fetch exception is
caught and *fails* the Job (returns `None`, without propagating the
exception); the `'Unknown Video'` placeholder applies only when fetched
metadata merely lacks a title, in which case processing continues. -/
theorem processSingleUrl_metadata_failure (env : Processing.Env)
    (transcribe : String → Except Unit String) (llm_api_key : Option String)
    (enhance_transcript : Bool) (url : String)
    (provider : Processing.Provider) (e : Unit)
    (hp : env.get_provider url = some provider)
    (hm : provider.get_metadata url = .error e) :
    Processing.processSingleUrl env transcribe llm_api_key enhance_transcript
      url = .ok none := by
  rw [Processing.processSingleUrl, hp]
  dsimp only
  rw [hm]

/-- C6 amended-claim witness at the concrete failing-metadata world. -/
theorem processSingleUrl_metadata_failure_witness :
    Processing.processSingleUrl Fixtures.envMetaFail Fixtures.transcribeOk
      none false "v" = Except.ok none :=
  processSingleUrl_metadata_failure Fixtures.envMetaFail Fixtures.transcribeOk
    none false "v" Fixtures.provMetaFail () rfl rfl

/-- A fetched metadata dictionary without a title does not fail the Job:
with a transcript-file download the worker still produces a final
transcript path (the missing-title fallback only affects the title). -/
theorem processSingleUrl_no_title_still_succeeds :
    Processing.processSingleUrl Fixtures.envNoTitle Fixtures.transcribeOk
      none false "v" = Except.ok (some "Video.txt") :=
  rfl

/-- C2 counterexample: a source URL whose expansion is empty, in a run with
no successful videos.  `all` of its (zero) expanded videos are contained
in the successful set, so by the claim the URL must be removed — but the
method's `if not successful_urls: return` early exit leaves the
pending-work file untouched, so `"c"` remains. -/
theorem bulk_update_removal_cex :
    Bulk.bulkFileAfter (fun _ => Except.ok []) ["c"] [] = ["c"] ∧
    (Bulk.originalToExpanded (fun _ => Except.ok []) "c").all
      (fun v => (([] : List String)).contains v) = true :=
  ⟨rfl, rfl⟩

/-- C2 (amended): when at least one video in the run succeeded, a source
URL is removed from the pending-work file iff every video it expands to is
in the run's successful set; when no video succeeded, the method returns
early and the file is left unchanged (nothing is removed, even for
sources whose expansion is empty). -/
theorem bulk_update_removal_iff (expand : String → Except Unit (List String))
    (original_urls successful_urls : List String) (u : String)
    (hu : u ∈ original_urls) :
    (successful_urls ≠ [] →
      (u ∉ Bulk.bulkFileAfter expand original_urls successful_urls ↔
        (Bulk.originalToExpanded expand u).all
          (fun v => successful_urls.contains v) = true)) ∧
    (successful_urls = [] →
      Bulk.bulkFileAfter expand original_urls successful_urls =
        original_urls) := by
  constructor
  · intro hne
    rw [Bulk.bulkFileAfter, Bulk.update_bulk_file_with_expansion_context,
      if_neg (by simpa [List.isEmpty_iff] using hne), Option.getD_some]
    constructor
    · intro hnot
      by_contra hall
      apply hnot
      rw [List.mem_filter]
      exact ⟨hu, by simpa using hall⟩
    · intro hall hmem
      rw [List.mem_filter] at hmem
      have := hmem.2
      rw [hall] at this
      simp at this
  · intro h0
    rw [Bulk.bulkFileAfter, Bulk.update_bulk_file_with_expansion_context,
      if_pos (by simp [h0]), Option.getD_none]

/-- C2 amended-claim witness: a source whose single expanded video
succeeded is removed. -/
theorem bulk_update_removal_iff_witness :
    ("a" ∉ Bulk.bulkFileAfter (fun _ => Except.ok ["x"]) ["a"] ["x"]) ↔
      (Bulk.originalToExpanded (fun _ => Except.ok ["x"]) "a").all
        (fun v => (["x"] : List String).contains v) = true :=
  (bulk_update_removal_iff (fun _ => Except.ok ["x"]) ["a"] ["x"] "a"
    (by decide)).1 (by decide)

/-- C9 counterexample: a TikTok profile whose external tool ignores the
requested `--playlist-end 20` and reports 21 valid entries — the provider
returns all 21 video URLs, so the enumeration is *not* capped at 20
regardless of what the tool reports. -/
theorem tiktok_enumeration_uncapped_cex :
    Providers.extract_user_videos Fixtures.ttEnvA "profile" none =
      Except.ok Fixtures.tt21 ∧
    Fixtures.tt21.length = 21 :=
  ⟨rfl, rfl⟩

/-- C9 (amended): YouTube channel enumeration is capped at 10 in code no
matter how many entries the external tool reports; TikTok profile
enumeration requests at most 20 entries via the tool's `--playlist-end 20`
argument but performs no truncation of its own — it returns every valid
line of the tool's output, so the 20-cap holds only if the tool honours
the argument. -/
theorem enumeration_caps :
    (∀ (env : Providers.YtEnv) (fuel : Nat) (url : String),
      env.validate_url url = true → env.get_url_type url = "channel" →
      (Providers.extract_video_urls env fuel url none).length ≤ 10) ∧
    (∀ (env : Providers.TtEnv) (url stdout : String),
      env.validate_url url = true → env.get_url_type url = "user" →
      env.run_yt_dlp (Providers.ttCmd 20 url) = .ok stdout →
      Providers.extract_user_videos env url none =
        .ok (Providers.ttLines env.validate_url stdout)) := by
  constructor
  · intro env fuel url hv ht
    cases fuel with
    | zero => simp [Providers.extract_video_urls]
    | succ n =>
      rw [Providers.extract_video_urls, hv, if_neg (by simp)]
      dsimp only
      rw [ht, if_neg (by decide), if_neg (by decide), if_pos (by decide)]
      cases hrun : env.run_yt_dlp (Providers.ytCmd "channel" (some 10) url) with
      | error e => simp
      | ok stdout =>
        dsimp only
        split
        · simp [List.length_take]
        · rename_i hcond
          simp at hcond
          omega
  · intro env url stdout hv ht hrun
    rw [Providers.extract_user_videos, hv, if_neg (by simp),
      if_neg (by simp [ht])]
    dsimp only
    simp only [Option.getD_none]
    rw [hrun]

/-- C9 amended-claim witness: concrete worlds for both halves. -/
theorem enumeration_caps_witness :
    (Providers.extract_video_urls Fixtures.ytEnvA 1 "chan" none).length ≤ 10 ∧
    Providers.extract_user_videos Fixtures.ttEnvA "profile" none =
      Except.ok (Providers.ttLines Fixtures.ttEnvA.validate_url
        ("u1\nu2\nu3\nu4\nu5\nu6\nu7\nu8\nu9\nu10\nu11\nu12\nu13\nu14\nu15" ++
         "\nu16\nu17\nu18\nu19\nu20\nu21")) :=
  ⟨enumeration_caps.1 Fixtures.ytEnvA 1 "chan" rfl rfl,
   enumeration_caps.2 Fixtures.ttEnvA "profile" _ rfl rfl rfl⟩

/-- C10 witness: the totality guarantees at a concrete unruly input. -/
theorem sanitize_folder_name_usable_witness :
    FileUtils.sanitize_folder_name "a: b/c?" ≠ "" ∧
    (FileUtils.sanitize_folder_name "a: b/c?").length ≤ 100 ∧
    (∀ c ∈ (FileUtils.sanitize_folder_name "a: b/c?").toList,
      FileUtils.isForbidden c = false) ∧
    (∀ c, (FileUtils.sanitize_folder_name "a: b/c?").toList.head? = some c →
      FileUtils.isSpaceChar c = false) ∧
    (∀ c, (FileUtils.sanitize_folder_name "a: b/c?").toList.getLast? = some c →
      FileUtils.isSpaceChar c = false) :=
  sanitize_folder_name_usable "a: b/c?"
